import Mathlib

/-!
Verification development for the podcastfy text-processing core:
`podcastfy/content_parser/pdf_extractor.py` (PDF text extraction,
NFKD normalization, reference-section truncation) and
`podcastfy/template_reader.py` (template loading with a basename-keyed
cache, placeholder filling, whitespace flattening).

Strings are modelled as `List Char`.  The filesystem and the PDF backend
are modelled as association lists passed explicitly; the mutable
`TemplateLoader` instance is modelled as an explicit state record.
-/

/-! ### Character and list utilities -/

/-- The whitespace class used by Python's `str.strip`, `str.split` and the
regex class `\s` for ASCII text: space, tab, newline, carriage return,
vertical tab and form feed. -/
def isSpace (c : Char) : Bool :=
  c == ' ' || c == '\t' || c == '\n' || c == '\r' || c == '\x0b' || c == '\x0c'

/-- Non-space predicate. -/
def nsp (c : Char) : Bool := !isSpace c

/-- Longest prefix whose characters satisfy `p`. -/
def takeW (p : Char → Bool) : List Char → List Char
  | [] => []
  | c :: cs => if p c then c :: takeW p cs else []

/-- Remainder after removing the longest prefix satisfying `p`. -/
def dropW (p : Char → Bool) : List Char → List Char
  | [] => []
  | c :: cs => if p c then dropW p cs else c :: cs

/-- Remove trailing whitespace. -/
def stripRight : List Char → List Char
  | [] => []
  | c :: cs =>
    match stripRight cs with
    | [] => if isSpace c then [] else [c]
    | d :: r => c :: d :: r

/-- Python's `str.strip()`: remove leading and trailing whitespace. -/
def pyStrip (l : List Char) : List Char := stripRight (dropW isSpace l)

/-- Association-list lookup (models Python `dict` lookup for the keys we
insert, which are always fresh). -/
def alookup {α β : Type} [DecidableEq α] (k : α) : List (α × β) → Option β
  | [] => none
  | p :: r => if p.1 = k then some p.2 else alookup k r

/-- `" ".join`: join pieces with a single space separator. -/
def joinW : List (List Char) → List Char
  | [] => []
  | [w] => w
  | w :: x :: ws => w ++ ' ' :: joinW (x :: ws)

/-- Fuelled worker for Python's `str.split()` (split on whitespace runs,
discarding empty pieces).  The fuel is an upper bound on the length of the
list, so the `0` case with a nonempty list is never reached from
`splitWS`. -/
def splitWSF : Nat → List Char → List (List Char)
  | _, [] => []
  | 0, _ :: _ => []
  | fuel + 1, c :: cs =>
    if isSpace c then splitWSF fuel cs
    else (c :: takeW nsp cs) :: splitWSF fuel (dropW nsp cs)

/-- Python's `str.split()` with no separator argument. -/
def splitWS (l : List Char) : List (List Char) := splitWSF l.length l

/-- Replace every maximal run of whitespace by a single space.  This is the
specification-side description of what `' '.join(s.split())` does to the
interior of the string. -/
def collapseWS : List Char → List Char
  | [] => []
  | [c] => if isSpace c then [' '] else [c]
  | c :: d :: rest =>
    if isSpace c then
      (if isSpace d then collapseWS (d :: rest) else ' ' :: collapseWS (d :: rest))
    else c :: collapseWS (d :: rest)

/-- Python's `s.replace('\n\n', '\n')`: one left-to-right pass replacing
non-overlapping occurrences of two newlines by one. -/
def replaceNN : List Char → List Char
  | [] => []
  | [c] => [c]
  | c :: d :: rest =>
    if c = '\n' && d = '\n' then c :: replaceNN rest
    else c :: replaceNN (d :: rest)

/-! ### template_reader.py -/

/-- Index of the first character satisfying `p`, if any. -/
def firstIdx (p : Char → Bool) : List Char → Option Nat
  | [] => none
  | c :: cs => if p c then some 0 else Option.map (fun n => n + 1) (firstIdx p cs)

/-- `os.path.basename` on a POSIX path: the part after the last `/`. -/
def pyBasename (p : List Char) : List Char :=
  (takeW (fun c => c != '/') p.reverse).reverse

/-- The root part of `os.path.splitext` applied to a bare file name:
split at the last dot unless every character before that dot is a dot
(so dotfiles like `.bashrc` keep their name). -/
def pySplitextRoot (name : List Char) : List Char :=
  match firstIdx (fun c => c == '.') name.reverse with
  | none => name
  | some k =>
    if (name.take (name.length - 1 - k)).all (fun c => c == '.') then name
    else name.take (name.length - 1 - k)

/-- `os.path.splitext(os.path.basename(path))[0]` as computed by
`TemplateLoader.load_content`. -/
def lcBasename (p : List Char) : List Char := pySplitextRoot (pyBasename p)

/-- Suffix test on character lists. -/
def isSuffixL (s l : List Char) : Bool := s == l.drop (l.length - s.length)

/-- `template_path.endswith(('.md', '.txt'))`. -/
def endsWithMdTxt (p : List Char) : Bool :=
  isSuffixL ".md".toList p || isSuffixL ".txt".toList p

/-- The mutable attributes of a `TemplateLoader` instance: the template
cache dictionary and the `template` attribute set by `fill_template`
(absent before the first successful fill). -/
structure LoaderState where
  template_cache : List (List Char × List Char)
  template : Option (List Char)
deriving DecidableEq

/-- `TemplateLoader.load_content`.  The filesystem is an association list
from path to file content; a path absent from it does not exist.  Branches
in source order: cache hit, existence check, extension check, read and
cache.  (The read-failure branch of the source needs an existing but
unreadable file, which this filesystem model cannot express; it also
returns `""` without caching.) -/
def load_content (fs : List (List Char × List Char)) (st : LoaderState)
    (path : List Char) : List Char × LoaderState :=
  match alookup (lcBasename path) st.template_cache with
  | some v => (v, st)
  | none =>
    match alookup path fs with
    | none => ([], st)
    | some content =>
      if endsWithMdTxt path then
        (content, ⟨st.template_cache ++ [(lcBasename path, content)], st.template⟩)
      else ([], st)

/-- Error kinds raised by `str.format`: `KeyError` for a missing mapping
key, and any other formatting error (`ValueError`, `IndexError`, ...)
collapsed into one kind, since `fill_template` treats them alike. -/
inductive FmtErr
  | keyError
  | valueError
deriving DecidableEq

/-- A replacement field name our model of `str.format` supports: nonempty,
with no conversion, format spec, attribute or index part.  (The source
templates only use such plain `{name}` fields; anything else is modelled
as a formatting error.) -/
def plainName (n : List Char) : Bool :=
  !n.isEmpty && n.all (fun c => c != ':' && c != '!' && c != '.' && c != '[')

/-- Fuelled worker for `template.format(**data)` on plain named fields:
`{{` and `}}` are literal braces, `{name}` substitutes `data[name]`
(missing key raises `KeyError`), a lone `}` or an unterminated `{` raises
a formatting error.  The fuel is an upper bound on the length of the
remaining input. -/
def pyFormatF (d : List (List Char × List Char)) :
    Nat → List Char → Except FmtErr (List Char)
  | _, [] => Except.ok []
  | 0, _ :: _ => Except.error FmtErr.valueError
  | fuel + 1, '{' :: '{' :: rest => Except.map (fun s => '{' :: s) (pyFormatF d fuel rest)
  | fuel + 1, '}' :: '}' :: rest => Except.map (fun s => '}' :: s) (pyFormatF d fuel rest)
  | _ + 1, '}' :: _ => Except.error FmtErr.valueError
  | fuel + 1, '{' :: rest =>
    match dropW (fun c => c != '}') rest with
    | [] => Except.error FmtErr.valueError
    | _ :: rest2 =>
      if plainName (takeW (fun c => c != '}') rest) then
        match alookup (takeW (fun c => c != '}') rest) d with
        | some v => Except.map (fun s => v ++ s) (pyFormatF d fuel rest2)
        | none => Except.error FmtErr.keyError
      else Except.error FmtErr.valueError
  | fuel + 1, c :: rest => Except.map (fun s => c :: s) (pyFormatF d fuel rest)

/-- `template.format(**data)` (plain named fields). -/
def pyFormat (d : List (List Char × List Char)) (t : List Char) :
    Except FmtErr (List Char) :=
  pyFormatF d t.length t

/-- `TemplateLoader.fill_template`: on success stores the filled string in
`self.template` and returns it; on `KeyError` or any other formatting
error returns the template unchanged and leaves the state untouched. -/
def fill_template (st : LoaderState) (t : List Char)
    (d : List (List Char × List Char)) : List Char × LoaderState :=
  match pyFormat d t with
  | Except.ok s => (s, ⟨st.template_cache, some s⟩)
  | Except.error _ => (t, st)

/-- The flattening performed by `TemplateLoader.get_template` on the loaded
content: `template.replace('\n\n', '\n')`, then `' '.join(...split())`,
then `.strip()`. -/
def flattenCore (t : List Char) : List Char :=
  pyStrip (joinW (splitWS (replaceNN t)))

/-- `TemplateLoader.get_template`: load, then flatten for single-line
consumption. -/
def get_template (fs : List (List Char × List Char)) (st : LoaderState)
    (path : List Char) : List Char × LoaderState :=
  (flattenCore (load_content fs st path).1, (load_content fs st path).2)

/-! ### pdf_extractor.py -/

/-- Case-insensitive literal match: consume `pat` (stored lowercase) from
the front of the text, comparing lowercased characters. -/
def dropPrefixCI : List Char → List Char → Option (List Char)
  | [], r => some r
  | _ :: _, [] => none
  | p :: ps, c :: cs => if c.toLower = p then dropPrefixCI ps cs else none

/-- The regex character class `[:\s\n]` that must follow a section header.
Since these characters are non-word, the preceding `\b` in the source
patterns is automatically satisfied. -/
def classChar (c : Char) : Bool := c == ':' || isSpace c

/-- Match `\s*WORDs?\b[:\s\n]` (with the optional `s` only when
`optS = true`) at the front of `rest`.  When the character after the base
word is `s`/`S`, the word boundary forces the regex to consume it. -/
def tailMatch (w : List Char) (optS : Bool) (rest : List Char) : Bool :=
  match dropPrefixCI w (dropW isSpace rest) with
  | none => false
  | some r =>
    match r with
    | [] => false
    | c :: r2 =>
      if optS && (c == 's' || c == 'S') then
        match r2 with
        | [] => false
        | d :: _ => classChar d
      else classChar c

/-- Whether the pattern `(?:^|\n)\s*WORDs?\b[:\s\n]` (case-insensitive)
matches starting at offset `i` of `t`: either at the start of the text, or
at a newline (which the match consumes). -/
def patMatchAt (w : List Char) (optS : Bool) (t : List Char) (i : Nat) : Bool :=
  if i == 0 then tailMatch w optS t
  else
    match t.drop i with
    | '\n' :: rest => tailMatch w optS rest
    | _ => false

/-- Search positions `i, i+1, ..., i+fuel-1` for the first one satisfying
`P`; return `i + fuel` when none does. -/
def firstBelowAux (P : Nat → Bool) : Nat → Nat → Nat
  | i, 0 => i
  | i, fuel + 1 => if P i then i else firstBelowAux P (i + 1) fuel

/-- Smallest `j < n` with `P j`, or `n` when there is none.  Models
`re.search` returning the leftmost match (its start offset), with `n`
encoding "no match". -/
def firstBelow (P : Nat → Bool) (n : Nat) : Nat := firstBelowAux P 0 n

/-- The four reference-section header patterns of `_ref_cleaner`, each as
(lowercased word, whether an optional trailing `s` is allowed). -/
def refPatterns : List (List Char × Bool) :=
  [("reference".toList, true), ("bibliography".toList, false),
   ("literature cited".toList, false), ("works cited".toList, false)]

/-- The `min_pos` loop of `_ref_cleaner`: start at `len(text)`, and for
each pattern take its first match's start offset when that is smaller. -/
def refMinPos (t : List Char) : Nat :=
  List.foldl
    (fun m q =>
      let s := firstBelow (patMatchAt q.1 q.2 t) t.length
      if s < m then s else m)
    t.length refPatterns

/-- `PDFExtractor._ref_cleaner`: truncate before the first reference-header
match and strip the result. -/
def ref_cleaner (t : List Char) : List Char := pyStrip (t.take (refMinPos t))

/-- Specification-side predicate: some one of the four header patterns
matches at offset `i`. -/
def specAnyPat (t : List Char) (i : Nat) : Bool :=
  refPatterns.any (fun q => patMatchAt q.1 q.2 t i)

/-- Specification-side cut offset: the overall leftmost offset at which any
of the four patterns matches, or the text length when none matches. -/
def specCut (t : List Char) : Nat := firstBelow (specAnyPat t) t.length

/-- Error raised out of `extract_content`: the open failed, or iterating
pages / extracting a page's text failed. -/
inductive PdfErr
  | openErr
  | pageErr
deriving DecidableEq

/-- A PDF document as seen through pymupdf: an ordered list of pages, each
either yielding its text or raising on `get_text` (modelled as `none`). -/
abbrev PdfDoc := List (Option (List Char))

/-- Outcome of one `extract_content` call, together with whether a document
handle remains open after the call returns or raises. -/
structure ExtractResult where
  result : Except PdfErr (List Char)
  docOpen : Bool

/-- `" ".join(page.get_text() for page in doc)`: the per-page texts in
document order, or `none` as soon as some page's `get_text` raises. -/
def getTexts : PdfDoc → Option (List (List Char))
  | [] => some []
  | none :: _ => none
  | some t :: ps => Option.map (fun ts => t :: ts) (getTexts ps)

/-- Model of `unicodedata.normalize('NFKD', ...)` on a single character,
tabulated for the composed characters used in this development: a composed
letter decomposes into its base letter followed by its combining mark;
every other character is left unchanged.  No combining mark is discarded. -/
def nfkdChar (c : Char) : List Char :=
  if c = 'é' then ['e', '́']
  else if c = 'è' then ['e', '̀']
  else if c = 'ü' then ['u', '̈']
  else [c]

/-- Model of `unicodedata.normalize('NFKD', ...)` on a string. -/
def nfkdL (l : List Char) : List Char := (l.map nfkdChar).flatten

/-- `PDFExtractor.extract_content`.  The backend is an association list
from path to document; a path absent from it fails to open.  The source
has no `finally`/`with` around the handle, so `doc.close()` is only
reached when the whole join succeeds: on a page failure the exception
propagates with the handle still open. -/
def extract_content (fs : List (List Char × PdfDoc)) (path : List Char)
    (remove_refs : Bool) : ExtractResult :=
  match alookup path fs with
  | none => ⟨Except.error PdfErr.openErr, false⟩
  | some doc =>
    match getTexts doc with
    | none => ⟨Except.error PdfErr.pageErr, true⟩
    | some texts =>
      ⟨Except.ok
        (if remove_refs then ref_cleaner (nfkdL (joinW texts))
         else nfkdL (joinW texts)),
       false⟩

/-! ### Concrete fixtures used by counterexamples and witnesses -/

/-- A document whose only page raises on `get_text`. -/
def badPageFs : List (List Char × PdfDoc) := [("bad.pdf".toList, [none])]

/-- A well-behaved one-page document. -/
def okFs : List (List Char × PdfDoc) := [("ok.pdf".toList, [some "hello world".toList])]

/-- A one-page document containing a composed character. -/
def cafeFs : List (List Char × PdfDoc) := [("cafe.pdf".toList, [some "café".toList])]

/-- Text with a `Works cited` header at offset 10 and a `Bibliography`
header at offset 50. -/
def c2ex : List Char :=
  "abcdefghij\nWorks cited: ".toList ++ List.replicate 26 'x' ++
    "\nBibliography: z".toList

/-- A loader state whose cache already holds basename `t`. -/
def stWithT : LoaderState := ⟨[("t".toList, "X".toList)], none⟩

/-- The empty loader state of a fresh `TemplateLoader()`. -/
def st0 : LoaderState := ⟨[], none⟩

/-- A filesystem holding `a/t.md`. -/
def fsA : List (List Char × List Char) := [("a/t.md".toList, "X".toList)]

/-- A filesystem holding `b/t.md` with different content. -/
def fsB : List (List Char × List Char) := [("b/t.md".toList, "Y".toList)]

/-! ### Lemmas about the list utilities -/

theorem dropW_le (p : Char → Bool) : ∀ l : List Char, (dropW p l).length ≤ l.length := by
  intro l
  induction l with
  | nil => simp [dropW]
  | cons c cs ih =>
    by_cases h : p c = true
    · simp only [dropW, h, if_true]
      exact Nat.le_trans ih (Nat.le_succ _)
    · simp only [dropW, h, if_false]
      exact Nat.le_refl _

theorem dropW_cons_neg {p : Char → Bool} {c : Char} (cs : List Char)
    (h : p c = false) : dropW p (c :: cs) = c :: cs := by
  simp [dropW, h]

theorem dropW_cons_pos {p : Char → Bool} {c : Char} (cs : List Char)
    (h : p c = true) : dropW p (c :: cs) = dropW p cs := by
  simp [dropW, h]

theorem dropW_head_false {p : Char → Bool} :
    ∀ {l c tl}, dropW p l = c :: tl → p c = false := by
  intro l
  induction l with
  | nil => intro c tl h; simp [dropW] at h
  | cons a as ih =>
    intro c tl h
    cases ha : p a with
    | true => rw [dropW_cons_pos as ha] at h; exact ih h
    | false =>
      rw [dropW_cons_neg as ha] at h
      injection h with h1 _
      rw [← h1]; exact ha

theorem dropW_idem (p : Char → Bool) (l : List Char) :
    dropW p (dropW p l) = dropW p l := by
  induction l with
  | nil => simp [dropW]
  | cons c cs ih =>
    cases h : p c with
    | true => rw [dropW_cons_pos cs h]; exact ih
    | false => rw [dropW_cons_neg cs h, dropW_cons_neg cs h]

theorem takeW_all_of {p : Char → Bool} :
    ∀ {l : List Char}, (∀ c ∈ l, p c = true) → takeW p l = l := by
  intro l
  induction l with
  | nil => intro _; rfl
  | cons c cs ih =>
    intro h
    have hc : p c = true := h c (List.mem_cons_self c cs)
    simp only [takeW, hc, if_true]
    rw [ih (fun x hx => h x (List.mem_cons_of_mem c hx))]

theorem dropW_all_of {p : Char → Bool} :
    ∀ {l : List Char}, (∀ c ∈ l, p c = true) → dropW p l = [] := by
  intro l
  induction l with
  | nil => intro _; rfl
  | cons c cs ih =>
    intro h
    have hc : p c = true := h c (List.mem_cons_self c cs)
    simp only [dropW, hc, if_true]
    exact ih (fun x hx => h x (List.mem_cons_of_mem c hx))

theorem takeW_mem {p : Char → Bool} :
    ∀ {l c}, c ∈ takeW p l → p c = true := by
  intro l
  induction l with
  | nil => intro c h; simp [takeW] at h
  | cons a as ih =>
    intro c h
    by_cases ha : p a = true
    · simp only [takeW, ha, if_true] at h
      rcases List.mem_cons.mp h with h1 | h2
      · rw [h1]; exact ha
      · exact ih h2
    · simp [takeW, ha] at h

theorem takeW_append_stop {p : Char → Bool} {b : Char} (hb : p b = false) :
    ∀ {w : List Char} (x : List Char), (∀ c ∈ w, p c = true) →
      takeW p (w ++ b :: x) = w := by
  intro w
  induction w with
  | nil => intro x _; simp [takeW, hb]
  | cons a w' ih =>
    intro x h
    have ha : p a = true := h a (List.mem_cons_self a w')
    simp only [List.cons_append, takeW, ha, if_true]
    exact congrArg (fun z => a :: z) (ih x (fun c hc => h c (List.mem_cons_of_mem a hc)))

theorem dropW_append_stop {p : Char → Bool} {b : Char} (hb : p b = false) :
    ∀ {w : List Char} (x : List Char), (∀ c ∈ w, p c = true) →
      dropW p (w ++ b :: x) = b :: x := by
  intro w
  induction w with
  | nil => intro x _; simp [dropW, hb]
  | cons a w' ih =>
    intro x h
    have ha : p a = true := h a (List.mem_cons_self a w')
    simp only [List.cons_append, dropW, ha, if_true]
    exact ih x (fun c hc => h c (List.mem_cons_of_mem a hc))

theorem takeW_dropW_append (p : Char → Bool) :
    ∀ l : List Char, takeW p l ++ dropW p l = l := by
  intro l
  induction l with
  | nil => rfl
  | cons c cs ih =>
    by_cases h : p c = true
    · simp only [takeW, dropW, h, if_true, List.cons_append]
      rw [ih]
    · simp [takeW, dropW, h]

theorem stripRight_cons_nil {c : Char} {cs : List Char}
    (h : stripRight cs = []) :
    stripRight (c :: cs) = if isSpace c then [] else [c] := by
  simp only [stripRight, h]

theorem stripRight_cons_ne {c : Char} {cs d : _} {r : List Char}
    (h : stripRight cs = d :: r) :
    stripRight (c :: cs) = c :: d :: r := by
  simp only [stripRight, h]

theorem stripRight_append_ne :
    ∀ (a b : List Char), stripRight b ≠ [] →
      stripRight (a ++ b) = a ++ stripRight b := by
  intro a
  induction a with
  | nil => intro b _; rfl
  | cons c a' ih =>
    intro b hb
    have h' := ih b hb
    cases hr : stripRight b with
    | nil => exact absurd hr hb
    | cons d r =>
      rw [hr] at h'
      have hes : ∃ e s, a' ++ d :: r = e :: s := by
        cases a' with
        | nil => exact ⟨d, r, rfl⟩
        | cons e a'' => exact ⟨e, a'' ++ d :: r, rfl⟩
      obtain ⟨e, s, hes⟩ := hes
      calc stripRight ((c :: a') ++ b)
          = stripRight (c :: (a' ++ b)) := by rw [List.cons_append]
        _ = c :: e :: s := stripRight_cons_ne (h'.trans hes)
        _ = c :: (a' ++ d :: r) := by rw [← hes]
        _ = (c :: a') ++ d :: r := (List.cons_append c a' (d :: r)).symm

theorem stripRight_append_nil :
    ∀ (a b : List Char), stripRight b = [] →
      stripRight (a ++ b) = stripRight a := by
  intro a
  induction a with
  | nil => intro b hb; simpa using hb
  | cons c a' ih =>
    intro b hb
    have h' := ih b hb
    cases hr : stripRight a' with
    | nil =>
      rw [List.cons_append, stripRight_cons_nil (by rw [h', hr]),
        stripRight_cons_nil hr]
    | cons d r =>
      rw [List.cons_append, stripRight_cons_ne (by rw [h', hr]),
        stripRight_cons_ne hr]

theorem stripRight_all_nonspace :
    ∀ {w : List Char}, (∀ c ∈ w, isSpace c = false) → stripRight w = w := by
  intro w
  induction w with
  | nil => intro _; rfl
  | cons a w' ih =>
    intro h
    have ha : isSpace a = false := h a (List.mem_cons_self a w')
    have h' : stripRight w' = w' := ih (fun c hc => h c (List.mem_cons_of_mem a hc))
    cases hw : w' with
    | nil =>
      have hnil : stripRight ([] : List Char) = [] := rfl
      rw [stripRight_cons_nil hnil, ha]
      simp
    | cons d r =>
      have h2 : stripRight (d :: r) = d :: r := by rw [← hw]; exact h'
      rw [stripRight_cons_ne h2]

theorem stripRight_ne_nil_of_head {c : Char} (cs : List Char)
    (h : isSpace c = false) : stripRight (c :: cs) ≠ [] := by
  cases hr : stripRight cs with
  | nil => rw [stripRight_cons_nil hr, h]; simp
  | cons d r => rw [stripRight_cons_ne hr]; simp

theorem stripRight_idem : ∀ l : List Char, stripRight (stripRight l) = stripRight l := by
  intro l
  induction l with
  | nil => rfl
  | cons c cs ih =>
    cases hr : stripRight cs with
    | nil =>
      rw [stripRight_cons_nil hr]
      cases h : isSpace c with
      | true => simp [h, stripRight]
      | false => simp [h, stripRight]
    | cons d r =>
      rw [hr] at ih
      rw [stripRight_cons_ne hr, stripRight_cons_ne ih]

theorem dropW_stripRight :
    ∀ {l : List Char}, dropW isSpace l = l →
      dropW isSpace (stripRight l) = stripRight l := by
  intro l
  cases l with
  | nil => intro _; rfl
  | cons c cs =>
    intro h
    have hc : isSpace c = false := by
      cases hx : isSpace c with
      | false => rfl
      | true =>
        rw [dropW_cons_pos cs hx] at h
        have hle := dropW_le isSpace cs
        rw [h] at hle
        simp at hle
    cases hr : stripRight cs with
    | nil =>
      rw [stripRight_cons_nil hr, hc]
      simp [dropW, hc]
    | cons d r =>
      rw [stripRight_cons_ne hr]
      exact dropW_cons_neg _ hc

theorem pyStrip_idem (l : List Char) : pyStrip (pyStrip l) = pyStrip l := by
  unfold pyStrip
  rw [dropW_stripRight (dropW_idem isSpace l), stripRight_idem]

theorem pyStrip_cons_space {c : Char} (l : List Char) (h : isSpace c = true) :
    pyStrip (c :: l) = pyStrip l := by
  unfold pyStrip
  rw [dropW_cons_pos l h]

/-! ### Lemmas about splitting, joining and collapsing whitespace -/

theorem pyStrip_of_head_nonspace {c : Char} (x : List Char) (h : isSpace c = false) :
    pyStrip (c :: x) = stripRight (c :: x) := by
  unfold pyStrip
  rw [dropW_cons_neg x h]

theorem splitWSF_nil : ∀ f, splitWSF f [] = [] := by
  intro f
  cases f <;> rfl

theorem splitWSF_fuel :
    ∀ f g (l : List Char), l.length ≤ f → l.length ≤ g →
      splitWSF f l = splitWSF g l := by
  intro f
  induction f with
  | zero =>
    intro g l hf _
    have : l = [] := List.eq_nil_of_length_eq_zero (Nat.le_zero.mp hf)
    rw [this, splitWSF_nil, splitWSF_nil]
  | succ f ih =>
    intro g l hf hg
    cases l with
    | nil => rw [splitWSF_nil, splitWSF_nil]
    | cons c cs =>
      cases g with
      | zero => simp at hg
      | succ g' =>
        have hcf : cs.length ≤ f := Nat.le_of_succ_le_succ hf
        have hcg : cs.length ≤ g' := Nat.le_of_succ_le_succ hg
        cases h : isSpace c with
        | true =>
          have e1 : splitWSF (f + 1) (c :: cs) = splitWSF f cs := by
            simp [splitWSF, h]
          have e2 : splitWSF (g' + 1) (c :: cs) = splitWSF g' cs := by
            simp [splitWSF, h]
          rw [e1, e2]
          exact ih g' cs hcf hcg
        | false =>
          have hd : (dropW nsp cs).length ≤ f := Nat.le_trans (dropW_le nsp cs) hcf
          have hd' : (dropW nsp cs).length ≤ g' := Nat.le_trans (dropW_le nsp cs) hcg
          have e1 : splitWSF (f + 1) (c :: cs) =
              (c :: takeW nsp cs) :: splitWSF f (dropW nsp cs) := by
            simp [splitWSF, h]
          have e2 : splitWSF (g' + 1) (c :: cs) =
              (c :: takeW nsp cs) :: splitWSF g' (dropW nsp cs) := by
            simp [splitWSF, h]
          rw [e1, e2, ih g' (dropW nsp cs) hd hd']

theorem splitWS_nil : splitWS [] = [] := rfl

theorem splitWS_cons_space {c : Char} (cs : List Char) (h : isSpace c = true) :
    splitWS (c :: cs) = splitWS cs := by
  unfold splitWS
  simp [List.length_cons, splitWSF, h]

theorem splitWS_cons_word {c : Char} (cs : List Char) (h : isSpace c = false) :
    splitWS (c :: cs) = (c :: takeW nsp cs) :: splitWS (dropW nsp cs) := by
  unfold splitWS
  have e1 : splitWSF (c :: cs).length (c :: cs) =
      (c :: takeW nsp cs) :: splitWSF cs.length (dropW nsp cs) := by
    simp [splitWSF, h]
  rw [e1, splitWSF_fuel cs.length (dropW nsp cs).length (dropW nsp cs)
    (dropW_le nsp cs) (Nat.le_refl _)]

theorem splitWS_dropW : ∀ l : List Char, splitWS (dropW isSpace l) = splitWS l := by
  intro l
  induction l with
  | nil => rfl
  | cons c cs ih =>
    cases h : isSpace c with
    | true => rw [dropW_cons_pos cs h, ih, splitWS_cons_space cs h]
    | false => rw [dropW_cons_neg cs h]

theorem collapseWS_cons_space :
    ∀ (cs : List Char) (c : Char), isSpace c = true →
      collapseWS (c :: cs) = ' ' :: collapseWS (dropW isSpace cs) := by
  intro cs
  induction cs with
  | nil =>
    intro c h
    simp [collapseWS, dropW, h]
  | cons d rest ih =>
    intro c h
    cases hd : isSpace d with
    | true =>
      have h1 : collapseWS (c :: d :: rest) = collapseWS (d :: rest) := by
        simp [collapseWS, h, hd]
      rw [h1, ih d hd, dropW_cons_pos rest hd]
    | false =>
      have h1 : collapseWS (c :: d :: rest) = ' ' :: collapseWS (d :: rest) := by
        simp [collapseWS, h, hd]
      rw [h1, dropW_cons_neg rest hd]

theorem collapseWS_cons_word {c : Char} (cs : List Char) (h : isSpace c = false) :
    collapseWS (c :: cs) = c :: collapseWS cs := by
  cases cs with
  | nil => simp [collapseWS, h]
  | cons d rest => simp [collapseWS, h]

theorem collapseWS_word_append :
    ∀ (w r : List Char), (∀ x ∈ w, isSpace x = false) →
      collapseWS (w ++ r) = w ++ collapseWS r := by
  intro w
  induction w with
  | nil => intro r _; rfl
  | cons a w' ih =>
    intro r h
    have ha : isSpace a = false := h a (List.mem_cons_self a w')
    rw [List.cons_append, collapseWS_cons_word _ ha,
      ih r (fun x hx => h x (List.mem_cons_of_mem a hx)), List.cons_append]

theorem joinW_cons_ne {w : List Char} {ws : List (List Char)} (h : ws ≠ []) :
    joinW (w :: ws) = w ++ ' ' :: joinW ws := by
  cases ws with
  | nil => exact absurd rfl h
  | cons x ws' => rfl

theorem joinW_ne_nil {w : List Char} (ws : List (List Char)) (h : w ≠ []) :
    joinW (w :: ws) ≠ [] := by
  cases ws with
  | nil => exact h
  | cons x ws' =>
    cases w with
    | nil => exact absurd rfl h
    | cons a w' => simp [joinW]

/-- Core equivalence: stripping the run-collapsed string is the same as
joining the whitespace-split words with single spaces. -/
theorem stripCollapse :
    ∀ n (l : List Char), l.length ≤ n →
      pyStrip (collapseWS l) = joinW (splitWS l) := by
  intro n
  induction n with
  | zero =>
    intro l hl
    have : l = [] := List.eq_nil_of_length_eq_zero (Nat.le_zero.mp hl)
    rw [this]; rfl
  | succ n ih =>
    intro l hl
    cases l with
    | nil => rfl
    | cons c cs =>
      have hcs : cs.length ≤ n := Nat.le_of_succ_le_succ hl
      cases hc : isSpace c with
      | true =>
        rw [collapseWS_cons_space cs c hc, pyStrip_cons_space _ (by rfl),
          splitWS_cons_space cs hc]
        have hd : (dropW isSpace cs).length ≤ n :=
          Nat.le_trans (dropW_le isSpace cs) hcs
        rw [ih (dropW isSpace cs) hd, splitWS_dropW]
      | false =>
        have hw : ∀ x ∈ c :: takeW nsp cs, isSpace x = false := by
          intro x hx
          rcases List.mem_cons.mp hx with h1 | h2
          · rw [h1]; exact hc
          · have := takeW_mem h2
            simp [nsp] at this
            exact this
        have hL : collapseWS (c :: cs) =
            (c :: takeW nsp cs) ++ collapseWS (dropW nsp cs) := by
          conv_lhs =>
            rw [show c :: cs = (c :: takeW nsp cs) ++ dropW nsp cs from by
              rw [List.cons_append, takeW_dropW_append]]
          exact collapseWS_word_append _ _ hw
        rw [hL, splitWS_cons_word cs hc]
        cases hr : dropW nsp cs with
        | nil =>
          rw [show collapseWS [] = ([] : List Char) from rfl, List.append_nil,
            splitWS_nil]
          rw [pyStrip_of_head_nonspace _ hc, stripRight_all_nonspace hw]
          rfl
        | cons b tl =>
          have hb : isSpace b = true := by
            have hnb := dropW_head_false hr
            simp [nsp] at hnb
            exact hnb
          rw [collapseWS_cons_space tl b hb, splitWS_cons_space tl hb,
            ← splitWS_dropW tl]
          have htl : (dropW isSpace tl).length ≤ n := by
            have h1 : (dropW isSpace tl).length ≤ tl.length := dropW_le isSpace tl
            have h2 : (b :: tl).length ≤ cs.length := by
              rw [← hr]; exact dropW_le nsp cs
            simp at h2
            omega
          cases hr2 : dropW isSpace tl with
          | nil =>
            rw [show collapseWS [] = ([] : List Char) from rfl, splitWS_nil]
            rw [List.cons_append, pyStrip_of_head_nonspace _ hc, ← List.cons_append]
            rw [stripRight_append_nil (c :: takeW nsp cs) [' '] (by rfl),
              stripRight_all_nonspace hw]
            rfl
          | cons e r2 =>
            have he : isSpace e = false := dropW_head_false hr2
            have hC : collapseWS (e :: r2) = e :: collapseWS r2 :=
              collapseWS_cons_word r2 he
            have key := ih (dropW isSpace tl) htl
            rw [hr2] at key
            have key2 : stripRight (e :: collapseWS r2) = joinW (splitWS (e :: r2)) := by
              rw [hC, pyStrip_of_head_nonspace _ he] at key
              exact key
            have hsrne : stripRight (e :: collapseWS r2) ≠ [] :=
              stripRight_ne_nil_of_head _ he
            have hstep : stripRight (' ' :: collapseWS (e :: r2)) =
                ' ' :: stripRight (e :: collapseWS r2) := by
              rw [hC]
              cases hsr : stripRight (e :: collapseWS r2) with
              | nil => exact absurd hsr hsrne
              | cons u v => exact stripRight_cons_ne hsr
            have hstepne : stripRight (' ' :: collapseWS (e :: r2)) ≠ [] := by
              rw [hstep]
              simp
            rw [List.cons_append, pyStrip_of_head_nonspace _ hc, ← List.cons_append,
              stripRight_append_ne _ _ hstepne, hstep, key2]
            have hne : splitWS (e :: r2) ≠ [] := by
              rw [splitWS_cons_word r2 he]
              simp
            rw [joinW_cons_ne hne]

/-- Every word produced by `splitWS` is nonempty and free of whitespace. -/
theorem splitWS_good :
    ∀ n (l : List Char), l.length ≤ n →
      ∀ w ∈ splitWS l, w ≠ [] ∧ ∀ c ∈ w, isSpace c = false := by
  intro n
  induction n with
  | zero =>
    intro l hl w hw
    have : l = [] := List.eq_nil_of_length_eq_zero (Nat.le_zero.mp hl)
    rw [this, splitWS_nil] at hw
    simp at hw
  | succ n ih =>
    intro l hl w hw
    cases l with
    | nil =>
      rw [splitWS_nil] at hw
      simp at hw
    | cons c cs =>
      have hcs : cs.length ≤ n := Nat.le_of_succ_le_succ hl
      cases hc : isSpace c with
      | true =>
        rw [splitWS_cons_space cs hc] at hw
        exact ih cs hcs w hw
      | false =>
        rw [splitWS_cons_word cs hc] at hw
        rcases List.mem_cons.mp hw with h1 | h2
        · constructor
          · rw [h1]; simp
          · intro x hx
            rw [h1] at hx
            rcases List.mem_cons.mp hx with h3 | h4
            · rw [h3]; exact hc
            · have := takeW_mem h4
              simp [nsp] at this
              exact this
        · have hd : (dropW nsp cs).length ≤ n :=
            Nat.le_trans (dropW_le nsp cs) hcs
          exact ih (dropW nsp cs) hd w h2

/-- Goodness of a word list: every member nonempty and whitespace-free. -/
def goodWords (ws : List (List Char)) : Prop :=
  ∀ w ∈ ws, w ≠ [] ∧ ∀ c ∈ w, isSpace c = false

theorem goodWords_splitWS (l : List Char) : goodWords (splitWS l) :=
  fun w hw => splitWS_good l.length l (Nat.le_refl _) w hw

theorem dropW_joinW {ws : List (List Char)} (h : goodWords ws) :
    dropW isSpace (joinW ws) = joinW ws := by
  cases ws with
  | nil => rfl
  | cons w ws' =>
    obtain ⟨hne, hns⟩ := h w (List.mem_cons_self w ws')
    cases w with
    | nil => exact absurd rfl hne
    | cons a w'' =>
      have ha : isSpace a = false := hns a (List.mem_cons_self a w'')
      cases ws' with
      | nil => exact dropW_cons_neg _ ha
      | cons x ws'' =>
        rw [joinW_cons_ne (by simp), List.cons_append]
        exact dropW_cons_neg _ ha

theorem stripRight_joinW :
    ∀ {ws : List (List Char)}, goodWords ws → stripRight (joinW ws) = joinW ws := by
  intro ws
  induction ws with
  | nil => intro _; rfl
  | cons w ws' ih =>
    intro h
    obtain ⟨hne, hns⟩ := h w (List.mem_cons_self w ws')
    cases ws' with
    | nil => exact stripRight_all_nonspace hns
    | cons x ws'' =>
      have h' : goodWords (x :: ws'') :=
        fun v hv => h v (List.mem_cons_of_mem w hv)
      have hx : x ≠ [] := (h' x (List.mem_cons_self x ws'')).1
      have hJ : stripRight (joinW (x :: ws'')) = joinW (x :: ws'') := ih h'
      have hJne : joinW (x :: ws'') ≠ [] := joinW_ne_nil ws'' hx
      have hstep : stripRight (' ' :: joinW (x :: ws'')) =
          ' ' :: joinW (x :: ws'') := by
        cases hj : joinW (x :: ws'') with
        | nil => exact absurd hj hJne
        | cons u v =>
          have h2 : stripRight (u :: v) = u :: v := by rw [← hj]; exact hJ
          rw [stripRight_cons_ne h2]
      rw [joinW_cons_ne (by simp)]
      rw [stripRight_append_ne w (' ' :: joinW (x :: ws'')) (by rw [hstep]; simp),
        hstep]

theorem pyStrip_joinW {ws : List (List Char)} (h : goodWords ws) :
    pyStrip (joinW ws) = joinW ws := by
  unfold pyStrip
  rw [dropW_joinW h, stripRight_joinW h]

theorem splitWS_joinW :
    ∀ {ws : List (List Char)}, goodWords ws → splitWS (joinW ws) = ws := by
  intro ws
  induction ws with
  | nil => intro _; rfl
  | cons w ws' ih =>
    intro h
    obtain ⟨hne, hns⟩ := h w (List.mem_cons_self w ws')
    cases w with
    | nil => exact absurd rfl hne
    | cons a w'' =>
      have ha : isSpace a = false := hns a (List.mem_cons_self a w'')
      have hw'' : ∀ c ∈ w'', isSpace c = false :=
        fun c hc => hns c (List.mem_cons_of_mem a hc)
      have hnspw : ∀ c ∈ w'', nsp c = true := by
        intro c hc
        simp [nsp, hw'' c hc]
      cases ws' with
      | nil =>
        show splitWS (a :: w'') = [a :: w'']
        rw [splitWS_cons_word w'' ha, takeW_all_of hnspw, dropW_all_of hnspw,
          splitWS_nil]
      | cons x ws'' =>
        have h' : goodWords (x :: ws'') :=
          fun v hv => h v (List.mem_cons_of_mem _ hv)
        rw [joinW_cons_ne (by simp), List.cons_append]
        rw [splitWS_cons_word _ ha]
        have hsp : nsp ' ' = false := by rfl
        rw [takeW_append_stop hsp _ hnspw, dropW_append_stop hsp _ hnspw]
        rw [splitWS_cons_space _ (by rfl), ih h']

theorem replaceNN_no_nl :
    ∀ n (l : List Char), l.length ≤ n → (∀ c ∈ l, c ≠ '\n') →
      replaceNN l = l := by
  intro n
  induction n with
  | zero =>
    intro l hl _
    have : l = [] := List.eq_nil_of_length_eq_zero (Nat.le_zero.mp hl)
    rw [this]; rfl
  | succ n ih =>
    intro l hl h
    cases l with
    | nil => rfl
    | cons c cs =>
      cases cs with
      | nil => rfl
      | cons d rest =>
        have hc : c ≠ '\n' := h c (List.mem_cons_self c _)
        have hcond : (c = '\n' && d = '\n') = false := by
          simp [hc]
        simp only [replaceNN, hcond, Bool.false_eq_true, if_false]
        have hlen : (d :: rest).length ≤ n := Nat.le_of_succ_le_succ hl
        rw [ih (d :: rest) hlen (fun x hx => h x (List.mem_cons_of_mem c hx))]

theorem joinW_no_nl :
    ∀ {ws : List (List Char)}, goodWords ws → ∀ c ∈ joinW ws, c ≠ '\n' := by
  intro ws
  induction ws with
  | nil => intro _ c hc; simp [joinW] at hc
  | cons w ws' ih =>
    intro h c hc
    have hmem : ∀ x ∈ w, x ≠ '\n' := by
      intro x hx
      have := (h w (List.mem_cons_self w ws')).2 x hx
      intro heq
      rw [heq] at this
      simp [isSpace] at this
    cases ws' with
    | nil => exact hmem c hc
    | cons y ws'' =>
      rw [joinW_cons_ne (by simp)] at hc
      rcases List.mem_append.mp hc with h1 | h2
      · exact hmem c h1
      · rcases List.mem_cons.mp h2 with h3 | h4
        · rw [h3]; intro hx; cases hx
        · exact ih (fun v hv => h v (List.mem_cons_of_mem w hv)) c h4

/-- `flattenCore` already yields a joined word list with no surrounding
whitespace, so the final `.strip()` is a no-op on it. -/
theorem flattenCore_eq_join (t : List Char) :
    flattenCore t = joinW (splitWS (replaceNN t)) := by
  unfold flattenCore
  exact pyStrip_joinW (goodWords_splitWS (replaceNN t))

/-- The code's flattening agrees with the specification's description:
collapse whitespace runs to single spaces after the double-newline pass,
then trim. -/
theorem flattenCore_eq_spec (t : List Char) :
    flattenCore t = pyStrip (collapseWS (replaceNN t)) := by
  rw [flattenCore_eq_join,
    stripCollapse (replaceNN t).length (replaceNN t) (Nat.le_refl _)]

theorem flattenCore_idem (t : List Char) :
    flattenCore (flattenCore t) = flattenCore t := by
  have hgood := goodWords_splitWS (replaceNN t)
  rw [flattenCore_eq_join t]
  rw [flattenCore_eq_join]
  rw [replaceNN_no_nl (joinW (splitWS (replaceNN t))).length _ (Nat.le_refl _)
    (joinW_no_nl hgood)]
  rw [splitWS_joinW hgood]

/-! ### Lemmas about the leftmost-match search -/

theorem fbAux_ge (P : Nat → Bool) : ∀ fuel i, i ≤ firstBelowAux P i fuel := by
  intro fuel
  induction fuel with
  | zero => intro i; exact Nat.le_refl i
  | succ f ih =>
    intro i
    cases h : P i with
    | true => simp [firstBelowAux, h]
    | false =>
      simp only [firstBelowAux, h, Bool.false_eq_true, if_false]
      exact Nat.le_trans (Nat.le_succ i) (ih (i + 1))

theorem fbAux_le (P : Nat → Bool) : ∀ fuel i, firstBelowAux P i fuel ≤ i + fuel := by
  intro fuel
  induction fuel with
  | zero => intro i; simp [firstBelowAux]
  | succ f ih =>
    intro i
    cases h : P i with
    | true =>
      simp only [firstBelowAux, h, if_true]
      omega
    | false =>
      simp only [firstBelowAux, h, Bool.false_eq_true, if_false]
      have := ih (i + 1)
      omega

theorem fbAux_min (P Q : Nat → Bool) :
    ∀ fuel i, min (firstBelowAux P i fuel) (firstBelowAux Q i fuel) =
      firstBelowAux (fun j => P j || Q j) i fuel := by
  intro fuel
  induction fuel with
  | zero => intro i; exact Nat.min_self i
  | succ f ih =>
    intro i
    cases hP : P i with
    | true =>
      cases hQ : Q i with
      | true => simp [firstBelowAux, hP, hQ]
      | false =>
        simp only [firstBelowAux, hP, hQ, Bool.false_eq_true, if_false, if_true,
          Bool.false_or, Bool.true_or]
        exact Nat.min_eq_left (Nat.le_trans (Nat.le_succ i) (fbAux_ge Q f (i + 1)))
    | false =>
      cases hQ : Q i with
      | true =>
        simp only [firstBelowAux, hP, hQ, Bool.false_eq_true, if_false, if_true,
          Bool.false_or, Bool.true_or]
        exact Nat.min_eq_right (Nat.le_trans (Nat.le_succ i) (fbAux_ge P f (i + 1)))
      | false =>
        simp only [firstBelowAux, hP, hQ, Bool.false_eq_true, if_false,
          Bool.false_or]
        exact ih (i + 1)

theorem fbAux_congr {P Q : Nat → Bool} (h : ∀ i, P i = Q i) :
    ∀ fuel i, firstBelowAux P i fuel = firstBelowAux Q i fuel := by
  intro fuel
  induction fuel with
  | zero => intro i; rfl
  | succ f ih =>
    intro i
    simp only [firstBelowAux, h i]
    cases hq : Q i with
    | true => rfl
    | false =>
      simp only [Bool.false_eq_true, if_false]
      exact ih (i + 1)

theorem firstBelow_le (P : Nat → Bool) (n : Nat) : firstBelow P n ≤ n := by
  have := fbAux_le P n 0
  simpa using this

theorem firstBelow_min (P Q : Nat → Bool) (n : Nat) :
    min (firstBelow P n) (firstBelow Q n) = firstBelow (fun j => P j || Q j) n :=
  fbAux_min P Q n 0

theorem or4_perm (a b c d : Bool) : ((c || (b || a)) || d) = (a || (b || (c || d))) := by
  cases a <;> cases b <;> cases c <;> cases d <;> rfl

theorem ifmin (s m : Nat) : (if s < m then s else m) = min s m := by
  rcases Nat.lt_or_ge s m with h | h
  · rw [if_pos h, Nat.min_eq_left (Nat.le_of_lt h)]
  · rw [if_neg (Nat.not_lt.mpr h), Nat.min_eq_right h]

/-- Taking each pattern's leftmost match and then the minimum start offset
is the same as the overall leftmost offset at which any pattern matches. -/
theorem refMinPos_eq_specCut (t : List Char) : refMinPos t = specCut t := by
  unfold refMinPos specCut refPatterns
  simp only [List.foldl, ifmin]
  rw [Nat.min_eq_left (firstBelow_le _ t.length)]
  rw [Nat.min_comm, firstBelow_min, Nat.min_comm, firstBelow_min,
    Nat.min_comm, firstBelow_min]
  apply fbAux_congr
  intro i
  simp only [specAnyPat, refPatterns, List.any_cons, List.any_nil, Bool.or_false]
  exact or4_perm _ _ _ _

/-! ### Remaining small helpers -/

theorem take_len {α : Type} : ∀ l : List α, l.take l.length = l := by
  intro l
  induction l with
  | nil => rfl
  | cons c cs ih =>
    simp only [List.length_cons, List.take_succ_cons]
    rw [ih]

theorem alookup_append_some {α β : Type} [DecidableEq α] {k : α} {v : β} :
    ∀ {A : List (α × β)} (B : List (α × β)),
      alookup k A = some v → alookup k (A ++ B) = some v := by
  intro A
  induction A with
  | nil => intro B h; simp [alookup] at h
  | cons q A' ih =>
    intro B h
    by_cases hq : q.1 = k
    · simp only [alookup, hq, if_pos] at h
      simp only [List.cons_append, alookup, hq, if_pos]
      exact h
    · simp only [alookup, hq, if_neg, if_false] at h
      simp only [List.cons_append, alookup, hq, if_neg, if_false]
      exact ih B h

/-! ### Claim theorems -/

/-- Claim C1, counterexample: a document that opens successfully but whose
page text extraction raises leaves the handle open — `extract_content` has
no scoped release, so the claim that the handle is closed on every exit
path after a successful open is false. -/
theorem extract_page_failure_leaves_handle_open :
    (extract_content badPageFs "bad.pdf".toList true).result =
        Except.error PdfErr.pageErr ∧
      (extract_content badPageFs "bad.pdf".toList true).docOpen = true :=
  ⟨rfl, rfl⟩

/-- Claim C1, amended: the handle is closed when extraction succeeds and no
handle is left open when the open itself fails, but when page iteration or
per-page text extraction raises after a successful open the handle is left
open. -/
theorem extract_handle_states :
    ∀ (fs : List (List Char × PdfDoc)) (path : List Char) (rr : Bool),
      ((∃ s, (extract_content fs path rr).result = Except.ok s) →
        (extract_content fs path rr).docOpen = false) ∧
      (alookup path fs = none →
        (extract_content fs path rr).docOpen = false ∧
          (extract_content fs path rr).result = Except.error PdfErr.openErr) ∧
      (∀ doc, alookup path fs = some doc → getTexts doc = none →
        (extract_content fs path rr).docOpen = true ∧
          (extract_content fs path rr).result = Except.error PdfErr.pageErr) := by
  intro fs path rr
  refine ⟨?_, ?_, ?_⟩
  · rintro ⟨s, hs⟩
    cases h1 : alookup path fs with
    | none => simp [extract_content, h1]
    | some doc =>
      cases h2 : getTexts doc with
      | none =>
        rw [show extract_content fs path rr =
          ⟨Except.error PdfErr.pageErr, true⟩ from by
            simp [extract_content, h1, h2]] at hs
        cases hs
      | some texts => simp [extract_content, h1, h2]
  · intro h1
    constructor <;> simp [extract_content, h1]
  · intro doc h1 h2
    constructor <;> simp [extract_content, h1, h2]

/-- Claim C1 witness: a successful extraction ends with the handle
closed. -/
theorem extract_handle_states_witness :
    (extract_content okFs "ok.pdf".toList true).docOpen = false :=
  (extract_handle_states okFs "ok.pdf".toList true).1 ⟨_, rfl⟩

/-- Claim C2: the reference cleaner truncates exactly before the overall
leftmost offset at which any of the four header patterns matches (then
strips); on the text with `Works cited` at offset 10 and `Bibliography` at
offset 50 it cuts at 10, and a text with no match is kept whole (only
stripped). -/
theorem ref_cleaner_leftmost_cut :
    (∀ t : List Char, ref_cleaner t = pyStrip (t.take (specCut t))) ∧
      (ref_cleaner c2ex = "abcdefghij".toList ∧ specCut c2ex = 10) ∧
      (∀ t : List Char, specCut t = t.length → ref_cleaner t = pyStrip t) := by
  have h1 : ∀ t : List Char, ref_cleaner t = pyStrip (t.take (specCut t)) := by
    intro t
    unfold ref_cleaner
    rw [refMinPos_eq_specCut]
  refine ⟨h1, ⟨by rfl, by rfl⟩, ?_⟩
  intro t h
  rw [h1 t, h, take_len]

/-- Claim C2 witness: on a text with no header pattern the whole (stripped)
text is kept. -/
theorem ref_cleaner_leftmost_cut_witness :
    ref_cleaner "hello".toList = pyStrip "hello".toList :=
  ref_cleaner_leftmost_cut.2.2 "hello".toList (by rfl)

/-- Claim C3: a cache hit on the basename returns the cached content with
the state unchanged, before any validation; a second load of the same
basename returns the first content even after the file is deleted; a
same-named file in another directory collides (first-loaded wins); and
cache entries are never evicted or changed by further loads. -/
theorem load_content_cache_semantics :
    (∀ fs st (p v : List Char),
        alookup (lcBasename p) st.template_cache = some v →
        load_content fs st p = (v, st)) ∧
      ((load_content fsA st0 "a/t.md".toList).1 = "X".toList) ∧
      (load_content [] (load_content fsA st0 "a/t.md".toList).2 "a/t.md".toList =
        ("X".toList, (load_content fsA st0 "a/t.md".toList).2)) ∧
      ((load_content fsB (load_content fsA st0 "a/t.md".toList).2
          "b/t.md".toList).1 = "X".toList) ∧
      (∀ fs st (p k v : List Char),
        alookup k st.template_cache = some v →
        alookup k (load_content fs st p).2.template_cache = some v) := by
  refine ⟨?_, by rfl, by rfl, by rfl, ?_⟩
  · intro fs st p v h
    unfold load_content
    rw [h]
  · intro fs st p k v h
    unfold load_content
    cases h1 : alookup (lcBasename p) st.template_cache with
    | some w => exact h
    | none =>
      cases h2 : alookup p fs with
      | none => exact h
      | some content =>
        cases h3 : endsWithMdTxt p with
        | false => simp [h3]; exact h
        | true =>
          simp only [h3, if_true]
          exact alookup_append_some _ h

/-- Claim C3 witness: with basename `t` already cached, loading a path with
a different directory and even a disallowed extension returns the cached
content and leaves the state unchanged. -/
theorem load_content_cache_semantics_witness :
    load_content [] stWithT "zzz/t.pdf".toList = ("X".toList, stWithT) :=
  load_content_cache_semantics.1 [] stWithT "zzz/t.pdf".toList "X".toList (by rfl)

/-- Claim C4: whenever formatting fails (missing placeholder key or any
other formatting error), `fill_template` returns the original template
unchanged — never a partially filled string; `fill_template "Hello {name}"
{}` is returned verbatim while supplying `name` yields `Hello World`. -/
theorem fill_template_fallback :
    (∀ st (t : List Char) d e, pyFormat d t = Except.error e →
        fill_template st t d = (t, st)) ∧
      ((fill_template st0 "Hello {name}".toList []).1 = "Hello {name}".toList) ∧
      ((fill_template st0 "Hello {name}".toList
          [("name".toList, "World".toList)]).1 = "Hello World".toList) := by
  refine ⟨?_, by rfl, by rfl⟩
  intro st t d e h
  unfold fill_template
  rw [h]

/-- Claim C4 witness: a missing key makes `fill_template` return the
template and state unchanged. -/
theorem fill_template_fallback_witness :
    fill_template st0 "Hello {name}".toList [] = ("Hello {name}".toList, st0) :=
  fill_template_fallback.1 st0 "Hello {name}".toList [] FmtErr.keyError (by rfl)

/-- Claim C5: with `remove_refs = false`, extraction returns exactly the
NFKD normalization of the page texts joined by single spaces; the
normalization only decomposes (the combining mark of `é` is kept in the
output, not stripped). -/
theorem extract_nfkd_join :
    (∀ fs (p : List Char) doc texts, alookup p fs = some doc →
        getTexts doc = some texts →
        extract_content fs p false = ⟨Except.ok (nfkdL (joinW texts)), false⟩) ∧
      ((extract_content cafeFs "cafe.pdf".toList false).result =
        Except.ok ("cafe".toList ++ ['́'])) ∧
      (nfkdChar 'é' = ['e', '́']) := by
  refine ⟨?_, by rfl, by rfl⟩
  intro fs p doc texts h1 h2
  simp [extract_content, h1, h2]

/-- Claim C5 witness: the one-page `café` document extracts to the NFKD
normalization of its page text. -/
theorem extract_nfkd_join_witness :
    extract_content cafeFs "cafe.pdf".toList false =
      ⟨Except.ok (nfkdL (joinW ["café".toList])), false⟩ :=
  extract_nfkd_join.1 cafeFs "cafe.pdf".toList [some "café".toList]
    ["café".toList] rfl rfl

/-- Claim C6: on a document whose normalized text matches none of the four
header patterns, extraction with and without reference removal agree after
trimming leading and trailing whitespace. -/
theorem extract_refs_noop_without_header :
    ∀ fs (p : List Char) doc texts, alookup p fs = some doc →
      getTexts doc = some texts →
      specCut (nfkdL (joinW texts)) = (nfkdL (joinW texts)).length →
      Except.map pyStrip (extract_content fs p true).result =
        Except.map pyStrip (extract_content fs p false).result := by
  intro fs p doc texts h1 h2 h3
  have ht : extract_content fs p true =
      ⟨Except.ok (ref_cleaner (nfkdL (joinW texts))), false⟩ := by
    simp [extract_content, h1, h2]
  have hf : extract_content fs p false =
      ⟨Except.ok (nfkdL (joinW texts)), false⟩ := by
    simp [extract_content, h1, h2]
  rw [ht, hf]
  have hrc : ref_cleaner (nfkdL (joinW texts)) = pyStrip (nfkdL (joinW texts)) := by
    unfold ref_cleaner
    rw [refMinPos_eq_specCut, h3, take_len]
  simp only [Except.map]
  rw [hrc, pyStrip_idem]

/-- Claim C6 witness: a plain one-page document without any header pattern
gives the same trimmed text for both flag values. -/
theorem extract_refs_noop_without_header_witness :
    Except.map pyStrip (extract_content okFs "ok.pdf".toList true).result =
      Except.map pyStrip (extract_content okFs "ok.pdf".toList false).result :=
  extract_refs_noop_without_header okFs "ok.pdf".toList
    [some "hello world".toList] ["hello world".toList] rfl rfl (by rfl)

/-- Claim C7: for a path whose extension is neither `.md` nor `.txt` and
whose basename is not cached, `load_content` returns the empty string —
whether or not the file exists — and leaves the cache untouched. -/
theorem load_content_bad_extension :
    ∀ fs st (p : List Char), endsWithMdTxt p = false →
      alookup (lcBasename p) st.template_cache = none →
      load_content fs st p = ([], st) := by
  intro fs st p h1 h2
  unfold load_content
  rw [h2]
  cases h3 : alookup p fs with
  | none => rfl
  | some content => simp [h1]

/-- Claim C7 witness: a `.pdf` path that exists on disk still loads as the
empty string with the state unchanged. -/
theorem load_content_bad_extension_witness :
    load_content [("q.pdf".toList, "Z".toList)] st0 "q.pdf".toList = ([], st0) :=
  load_content_bad_extension [("q.pdf".toList, "Z".toList)] st0
    "q.pdf".toList (by rfl) (by rfl)

/-- Claim C8: `get_template` returns the loaded content flattened exactly as
specified — double-newline pass, whitespace runs collapsed to single
spaces, then trimmed; the example content collapses to
`Line1 Line2 Line3`, and empty content stays empty. -/
theorem get_template_flattening :
    (∀ fs st (p : List Char), (get_template fs st p).1 =
        pyStrip (collapseWS (replaceNN (load_content fs st p).1))) ∧
      (flattenCore "Line1\n\nLine2\n\nLine3".toList =
        "Line1 Line2 Line3".toList) ∧
      (flattenCore [] = []) := by
  refine ⟨?_, by rfl, by rfl⟩
  intro fs st p
  exact flattenCore_eq_spec (load_content fs st p).1

/-- Claim C9: the flattening transformation of `get_template` is
idempotent. -/
theorem get_template_flatten_idempotent :
    ∀ s : List Char, flattenCore (flattenCore s) = flattenCore s :=
  flattenCore_idem

/-- Claim C10: `fill_template` never touches the template cache; on a
formatting error it leaves the whole state unchanged, and on success its
only state change is storing the filled string in the `template`
attribute. -/
theorem fill_template_frame :
    ∀ st (t : List Char) d,
      ((fill_template st t d).2.template_cache = st.template_cache) ∧
      (∀ e, pyFormat d t = Except.error e → fill_template st t d = (t, st)) ∧
      (∀ s, pyFormat d t = Except.ok s →
        fill_template st t d = (s, ⟨st.template_cache, some s⟩)) := by
  intro st t d
  refine ⟨?_, ?_, ?_⟩
  · cases h : pyFormat d t with
    | ok s => simp [fill_template, h]
    | error e => simp [fill_template, h]
  · intro e h
    unfold fill_template
    rw [h]
  · intro s h
    unfold fill_template
    rw [h]

/-- Claim C10 witness: a successful fill only sets the `template`
attribute, leaving the cache as it was. -/
theorem fill_template_frame_witness :
    fill_template st0 "a {b}".toList [("b".toList, "c".toList)] =
      ("a c".toList, ⟨[], some "a c".toList⟩) :=
  (fill_template_frame st0 "a {b}".toList [("b".toList, "c".toList)]).2.2
    "a c".toList (by rfl)
